import Mathlib

set_option autoImplicit false

namespace Hirefire

/-! # Shallow embedding of `hirefire/procs/celery.py`

Python dicts are modelled as association lists with at most one entry per key
(`dictGet` / `dictInsert`), `collections.Counter` as a tally association list,
and the external Celery collaborators (broker channel, worker inspection API)
as explicit data.  Stateful memoization (`CeleryInspector`) is explicit state
passing, together with a log of the external worker calls issued, so that the
memoization claims can be stated. -/

/-- Lookup in a Python-style dict modelled as an association list:
the first entry with the key (entries are kept unique by `dictInsert`). -/
def dictGet {K V : Type} [DecidableEq K] : List (K × V) → K → Option V
  | [], _ => none
  | (k, v) :: rest, key => if k = key then some v else dictGet rest key

/-- Python dict assignment `d[key] = val`: overwrite in place when the key
exists, else append at the end (insertion order preserved). -/
def dictInsert {K V : Type} [DecidableEq K] : List (K × V) → K → V → List (K × V)
  | [], key, val => [(key, val)]
  | (k, v) :: rest, key, val =>
    if k = key then (k, val) :: rest else (k, v) :: dictInsert rest key val

/-- One step of `collections.Counter` construction: bump the tally for `key`. -/
def counterAdd : List (String × Nat) → String → List (String × Nat)
  | [], key => [(key, 1)]
  | (k, n) :: rest, key =>
    if k = key then (k, n + 1) :: rest else (k, n) :: counterAdd rest key

/-- `collections.Counter(names)`: tally of occurrences, keyed by first
occurrence order; keys appear only for elements actually present. -/
def counter (names : List String) : List (String × Nat) :=
  names.foldl counterAdd []

/-- `Counter.__getitem__`: a missing key reads as 0, never raises. -/
def counterGet (c : List (String × Nat)) (q : String) : Nat :=
  (dictGet c q).getD 0

/-- Error-propagating map, mirroring Python's lazy `map` consumed by
`Counter`: elements are evaluated left to right and the first exception
propagates. -/
def mapME {α β : Type} (f : α → Except String β) : List α → Except String (List β)
  | [] => Except.ok []
  | x :: xs =>
    match f x with
    | Except.ok y => (mapME f xs).map (fun ys => y :: ys)
    | Except.error e => Except.error e

/-- A queue-binding record as returned by `inspect().active_queues()`:
fields `exchange.name`, `routing_key`, `name`. -/
structure QueueBinding where
  exchangeName : String
  routingKey : String
  name : String
deriving DecidableEq

/-- A task record as returned by `inspect().active()` / `reserved()` /
`scheduled()`: fields `delivery_info.exchange`, `delivery_info.routing_key`. -/
structure Task where
  exchange : String
  routingKey : String
deriving DecidableEq

/-- The Celery application's worker-inspection data: per-worker lists of queue
bindings (`active_queues()`) and, for each status string, per-worker lists of
tasks (`active()` / `reserved()` / `scheduled()`). -/
structure App where
  activeQueues : List (List QueueBinding)
  inspected : String → List (List Task)

/-- The routing table: a dict from `(exchange name, routing key)` to queue
name. -/
abbrev RouteTable := List ((String × String) × String)

/-- The dict comprehension in `get_route_queues`: iterate the flattened
binding records, each binding writing its key (later bindings overwrite
earlier ones, Python dict semantics). -/
def buildRouteQueues (bindings : List QueueBinding) : RouteTable :=
  bindings.foldl (fun d q => dictInsert d (q.exchangeName, q.routingKey) q.name) []

/-- The routing table `get_route_queues` computes on a cache miss:
`chain.from_iterable(worker_queues.values())` then the dict comprehension. -/
def routeTableOf (app : App) : RouteTable :=
  buildRouteQueues app.activeQueues.flatten

/-- The inner `get_queue(task)`: resolve the task's delivery info through the
routing table; a missing combination raises `KeyError`. -/
def get_queue (route_queues : RouteTable) (task : Task) : Except String String :=
  match dictGet route_queues (task.exchange, task.routingKey) with
  | some q => Except.ok q
  | none => Except.error "KeyError: route"

/-- The valid task statuses accepted by `get_status_task_counts`. -/
def validStatuses : List String := ["active", "reserved", "scheduled"]

/-- The memoized state of one `CeleryInspector` instance: the cached
`route_queues` (initially `None`) and the per-status counters stored by the
key-default dict on successful computation. -/
structure InspectorState where
  route_queues : Option RouteTable
  statusCache : List (String × List (String × Nat))
deriving DecidableEq

/-- A freshly constructed `CeleryInspector(app)`. -/
def initInspector : InspectorState := ⟨none, []⟩

/-- An external worker round-trip issued by an inspector: either the
`active_queues()` query or the per-status task query. -/
inductive ExtCall where
  | activeQueuesCall
  | inspectCall (status : String)
deriving DecidableEq

/-- `CeleryInspector.get_route_queues`: return the cached routing table if
present, else query the workers once, build the table, store and return it. -/
def get_route_queues (app : App) (s : InspectorState) :
    RouteTable × InspectorState × List ExtCall :=
  match s.route_queues with
  | some rq => (rq, s, [])
  | none =>
    (routeTableOf app, { s with route_queues := some (routeTableOf app) },
      [ExtCall.activeQueuesCall])

/-- `CeleryInspector.get_status_task_counts`: reject an invalid status with a
`KeyError` before any worker query; otherwise resolve the routing table, issue
the per-status worker query, resolve every flattened task's delivery info to a
queue name and tally with `Counter`. -/
def get_status_task_counts (app : App) (s : InspectorState) (status : String) :
    Except String (List (String × Nat)) × InspectorState × List ExtCall :=
  if status ∈ validStatuses then
    match get_route_queues app s with
    | (rq, s1, calls1) =>
      match mapME (get_queue rq) (app.inspected status).flatten with
      | Except.ok queues =>
        (Except.ok (counter queues), s1, calls1 ++ [ExtCall.inspectCall status])
      | Except.error e => (Except.error e, s1, calls1 ++ [ExtCall.inspectCall status])
  else
    (Except.error "KeyError: Invalid task status", s, [])

/-- Modelled from the spec: `KeyDefaultDict` (defined in `hirefire/utils.py`,
which is not part of this source tree) — "an explicit on-demand cache keyed by
identity, computed via a supplied function on first miss, stored thereafter"
(spec §9, §3).  `inspector[status]` returns the stored counter on a hit; on a
miss it runs `get_status_task_counts` and stores the result; a raising
computation stores nothing. -/
def inspectorGet (app : App) (s : InspectorState) (status : String) :
    Except String (List (String × Nat)) × InspectorState × List ExtCall :=
  match dictGet s.statusCache status with
  | some c => (Except.ok c, s, [])
  | none =>
    match get_status_task_counts app s status with
    | (Except.ok c, s1, calls) =>
      (Except.ok c, { s1 with statusCache := dictInsert s1.statusCache status c }, calls)
    | (Except.error e, s1, calls) => (Except.error e, s1, calls)

/-- Application handles are identified by an opaque identity key (Python keys
the registry by the app object's identity); an environment maps each handle to
its worker-inspection data. -/
abbrev AppEnv := Nat → App

/-- The `'celery_inspect'` registry stored in the caller-supplied cache
object: one inspector state per application handle. -/
abbrev Cache := List (Nat × InspectorState)

/-- External worker calls tagged with the application handle they went to. -/
abbrev Calls := List (Nat × ExtCall)

/-- Modelled from the spec: the outer `KeyDefaultDict(CeleryInspector)`
(`KeyDefaultDict` lives in `hirefire/utils.py`, not in this source tree) —
`cache['celery_inspect'][app]` returns the stored inspector for the handle, or
constructs a fresh `CeleryInspector(app)` and stores it on first access
(spec §3, §9). -/
def registryGet (c : Cache) (a : Nat) : InspectorState × Cache :=
  match dictGet c a with
  | some st => (st, c)
  | none => (initInspector, dictInsert c a initInspector)

/-- One summand of `inspect_count`:
`cache['celery_inspect'][self.app][status][queue]` — fetch (or create) the
handle's inspector, fetch (or compute) the status counter, then read the
queue's tally (0 when absent). -/
def inspectOne (env : AppEnv) (a : Nat) (c : Cache) (status queue : String) :
    Except String Nat × Cache × Calls :=
  match registryGet c a with
  | (st, c1) =>
    match inspectorGet (env a) st status with
    | (Except.ok ctr, st1, calls) =>
      (Except.ok (counterGet ctr queue), dictInsert c1 a st1,
        calls.map (fun e => (a, e)))
    | (Except.error e, st1, calls) =>
      (Except.error e, dictInsert c1 a st1, calls.map (fun e => (a, e)))

/-- The generator sum inside `inspect_count`: evaluate the summands left to
right, threading the cache; the first exception aborts the sum. -/
def inspectSum (env : AppEnv) (a : Nat) :
    List (String × String) → Cache → Except String Nat × Cache × Calls
  | [], c => (Except.ok 0, c, [])
  | (s, q) :: rest, c =>
    match inspectOne env a c s q with
    | (Except.ok n, c1, calls1) =>
      match inspectSum env a rest c1 with
      | (Except.ok m, c2, calls2) => (Except.ok (n + m), c2, calls1 ++ calls2)
      | (Except.error e, c2, calls2) => (Except.error e, c2, calls1 ++ calls2)
    | (Except.error e, c1, calls1) => (Except.error e, c1, calls1)

/-- A proc's configuration: the queue names to check, the statuses to
inspect, and its application handle. -/
structure ProcConfig where
  queues : List String
  inspect_statuses : List String
  app : Nat

/-- The iteration order of `inspect_count`'s generator:
`for status in self.inspect_statuses for queue in self.queues`. -/
def statusQueuePairs (cfg : ProcConfig) : List (String × String) :=
  cfg.inspect_statuses.flatMap (fun s => cfg.queues.map (fun q => (s, q)))

/-- `CeleryProc.inspect_count(cache)`: ensure the registry exists in the
cache object, then sum the per-(status, queue) tallies. -/
def inspect_count (env : AppEnv) (cfg : ProcConfig) (c : Cache) :
    Except String Nat × Cache × Calls :=
  inspectSum env cfg.app (statusQueuePairs cfg) c

/-- The outcome of `channel.queue_declare(queue, passive=True)`: success with
a message count, the caught `ChannelError` (queue not created yet), or any
other exception (uncaught, propagates). -/
inductive DeclareResult where
  | ok (message_count : Nat)
  | channelError
  | otherError
deriving DecidableEq

/-- The broker channel, split by the capability probe
`hasattr(self.channel, '_size')`: a Redis channel with a direct size query,
or an AMQP channel supporting only passive declare. -/
inductive Channel where
  | direct (size : String → Nat)
  | declareOnly (declare : String → DeclareResult)

/-- The AMQP counting loop of `quantity`: passively declare each queue in
order; `ChannelError` contributes 0 and the loop continues; any other
exception propagates. -/
def passiveSum (declare : String → DeclareResult) : List String → Except String Nat
  | [] => Except.ok 0
  | q :: rest =>
    match declare q with
    | DeclareResult.ok n => (passiveSum declare rest).map (fun m => n + m)
    | DeclareResult.channelError => passiveSum declare rest
    | DeclareResult.otherError => Except.error "broker error"

/-- `CeleryProc.quantity(cache=None)`: on a channel with `_size`, return the
sum of the direct size queries and nothing else (early return).  Otherwise
run the passive-declare loop; then, only if a cache object was supplied and
`inspect_statuses` is non-empty, add `inspect_count(cache)`. -/
def quantity (env : AppEnv) (cfg : ProcConfig) (ch : Channel)
    (cache : Option Cache) : Except String Nat × Option Cache × Calls :=
  match ch with
  | Channel.direct size => (Except.ok (cfg.queues.map size).sum, cache, [])
  | Channel.declareOnly declare =>
    match passiveSum declare cfg.queues with
    | Except.error e => (Except.error e, cache, [])
    | Except.ok count =>
      match cache with
      | some c =>
        if cfg.inspect_statuses ≠ [] then
          match inspect_count env cfg c with
          | (Except.ok n, c1, calls) => (Except.ok (count + n), some c1, calls)
          | (Except.error e, c1, calls) => (Except.error e, some c1, calls)
        else (Except.ok count, some c, [])
      | none => (Except.ok count, none, [])

/-- A scaling-decision cycle: several procs' `inspect_count` queries against
one shared cache object, in sequence, collecting every external worker call
issued. -/
def runInspect (env : AppEnv) : List ProcConfig → Cache → Cache × Calls
  | [], c => (c, [])
  | cfg :: rest, c =>
    match inspect_count env cfg c with
    | (_, c1, calls1) =>
      match runInspect env rest c1 with
      | (c2, calls2) => (c2, calls1 ++ calls2)

/-! ## Pure characterizations and proof-side helpers -/

/-- The per-status resolution pipeline, written against the routing table the
code would build from scratch: flatten the per-worker task lists and resolve
each task's delivery info. -/
def resolveStatus (app : App) (status : String) : Except String (List String) :=
  mapME (get_queue (routeTableOf app)) (app.inspected status).flatten

/-- What `get_status_task_counts` computes on a fresh inspector: the
cache-independent value of a status query. -/
def pureCounts (app : App) (status : String) : Except String (List (String × Nat)) :=
  (get_status_task_counts app initInspector status).1

/-- The cache-independent value of the `inspect_count` generator sum over a
list of `(status, queue)` pairs. -/
def pureSum (app : App) : List (String × String) → Except String Nat
  | [] => Except.ok 0
  | (s, q) :: rest =>
    match pureCounts app s with
    | Except.ok ctr => (pureSum app rest).map (fun m => counterGet ctr q + m)
    | Except.error e => Except.error e

/-- An inspector state is consistent with its app when every memoized piece
equals what a fresh computation would produce. -/
def consistent (app : App) (st : InspectorState) : Prop :=
  (∀ rq, st.route_queues = some rq → rq = routeTableOf app) ∧
  (∀ s ctr, dictGet st.statusCache s = some ctr → pureCounts app s = Except.ok ctr)

/-- A cache object is consistent when every stored inspector is consistent
with its application handle's data. -/
def cacheConsistent (env : AppEnv) (c : Cache) : Prop :=
  ∀ a st, dictGet c a = some st → consistent (env a) st

/-- Whether the handle's inspector exists and has its routing table built. -/
def routeDone (c : Cache) (a : Nat) : Bool :=
  match dictGet c a with
  | some st => st.route_queues.isSome
  | none => false

/-- Whether the handle's inspector exists and has the status memoized. -/
def statusDone (c : Cache) (a : Nat) (s : String) : Bool :=
  match dictGet c a with
  | some st => (dictGet st.statusCache s).isSome
  | none => false

/-- Occurrence count of an element in a list. -/
def occ {α : Type} [DecidableEq α] (x : α) : List α → Nat
  | [] => 0
  | y :: rest => (if y = x then 1 else 0) + occ x rest

/-- Every valid status of the environment resolves without a routing-table
miss (the error-free regime of worker inspection). -/
def goodEnv (env : AppEnv) : Prop :=
  ∀ a s, s ∈ validStatuses → ∃ ns, resolveStatus (env a) s = Except.ok ns

/-- `1` for `true`, `0` for `false`; used for at-most-once counting. -/
def flagNat (b : Bool) : Nat := if b then 1 else 0

/-! ## Concrete example inputs (used by witnesses and counterexamples) -/

/-- An app with one worker bound as `(exchange='e', routing_key='r') → 'q'`
and one active task with that delivery info. -/
def exApp : App :=
  { activeQueues := [[⟨"e", "r", "q"⟩]],
    inspected := fun s => if s = "active" then [[⟨"e", "r"⟩]] else [] }

/-- An environment where every handle resolves to `exApp`. -/
def exEnv : AppEnv := fun _ => exApp

/-- A proc checking queues `q` and `z` and inspecting `active` tasks, on
application handle `0`. -/
def exCfg : ProcConfig := ⟨["q", "z"], ["active"], 0⟩

/-- A direct-size channel reporting 2 messages on every queue. -/
def exSize : String → Nat := fun _ => 2

/-- A passive-declare channel where queue `x` does not exist and queue `y`
holds 5 messages. -/
def exDeclare : String → DeclareResult :=
  fun q => if q = "y" then DeclareResult.ok 5 else DeclareResult.channelError

/-- An app whose workers report no queue bindings but one active task: the
task's `(e, r)` delivery info is absent from the (empty) routing table, so
every `active` status query fails with the routing lookup error. -/
def missApp : App :=
  { activeQueues := [],
    inspected := fun s => if s = "active" then [[⟨"e", "r"⟩]] else [] }

/-- An environment where every handle resolves to `missApp`. -/
def missEnv : AppEnv := fun _ => missApp

/-- A proc inspecting `active` tasks of queue `q` on handle `0`, against
`missApp`'s stale topology. -/
def missCfg : ProcConfig := ⟨["q"], ["active"], 0⟩

/-! ## Dict, occurrence and counter lemmas -/

theorem dictGet_dictInsert_self {K V : Type} [DecidableEq K]
    (d : List (K × V)) (k : K) (v : V) : dictGet (dictInsert d k v) k = some v := by
  induction d with
  | nil => simp [dictGet, dictInsert]
  | cons p rest ih =>
    obtain ⟨k0, v0⟩ := p
    by_cases h : k0 = k <;> simp [dictGet, dictInsert, h, ih]

theorem dictGet_dictInsert_ne {K V : Type} [DecidableEq K]
    (d : List (K × V)) (k k' : K) (v : V) (h : k ≠ k') :
    dictGet (dictInsert d k v) k' = dictGet d k' := by
  induction d with
  | nil => simp [dictGet, dictInsert, h]
  | cons p rest ih =>
    obtain ⟨k0, v0⟩ := p
    by_cases h0 : k0 = k
    · subst h0
      simp [dictGet, dictInsert, h]
    · by_cases h1 : k0 = k' <;>
        simp [dictGet, dictInsert, h0, h1, ih, Ne.symm h]

theorem dictInsert_cons_self {K V : Type} [DecidableEq K]
    (k : K) (v0 v : V) (rest : List (K × V)) :
    dictInsert ((k, v0) :: rest) k v = (k, v) :: rest := by
  simp [dictInsert]

theorem dictInsert_cons_ne {K V : Type} [DecidableEq K]
    (k0 k : K) (v0 v : V) (rest : List (K × V)) (h : k0 ≠ k) :
    dictInsert ((k0, v0) :: rest) k v = (k0, v0) :: dictInsert rest k v := by
  simp [dictInsert, h]

theorem mem_keys_dictInsert {K V : Type} [DecidableEq K]
    (d : List (K × V)) (k : K) (v : V) (k0 : K) :
    k0 ∈ (dictInsert d k v).map Prod.fst ↔ (k0 ∈ d.map Prod.fst ∨ k0 = k) := by
  induction d with
  | nil => simp [dictInsert, eq_comm]
  | cons p rest ih =>
    obtain ⟨k1, v1⟩ := p
    by_cases h1 : k1 = k
    · subst h1
      rw [dictInsert_cons_self]
      simp only [List.map_cons, List.mem_cons]
      tauto
    · rw [dictInsert_cons_ne _ _ _ _ _ h1]
      simp only [List.map_cons, List.mem_cons, ih]
      tauto

theorem keys_dictInsert {K V : Type} [DecidableEq K]
    (d : List (K × V)) (k : K) (v : V) (hnd : (d.map Prod.fst).Nodup) :
    ((dictInsert d k v).map Prod.fst).Nodup := by
  induction d with
  | nil => simp [dictInsert]
  | cons p rest ih =>
    obtain ⟨k0, v0⟩ := p
    simp only [List.map_cons, List.nodup_cons] at hnd
    by_cases h0 : k0 = k
    · subst h0
      rw [dictInsert_cons_self]
      simp only [List.map_cons, List.nodup_cons]
      exact hnd
    · rw [dictInsert_cons_ne _ _ _ _ _ h0]
      simp only [List.map_cons, List.nodup_cons]
      refine ⟨?_, ih hnd.2⟩
      intro hmem
      rcases (mem_keys_dictInsert rest k v k0).mp hmem with h | h
      · exact hnd.1 h
      · exact h0 h

theorem occ_nil {α : Type} [DecidableEq α] (x : α) : occ x ([] : List α) = 0 := rfl

theorem occ_append {α : Type} [DecidableEq α] (x : α) (l1 l2 : List α) :
    occ x (l1 ++ l2) = occ x l1 + occ x l2 := by
  induction l1 with
  | nil => simp [occ]
  | cons y rest ih => simp [occ, ih]; omega

theorem occ_map_tag (a b : Nat) (x : ExtCall) (l : List ExtCall) :
    occ (b, x) (l.map (fun e => (a, e))) = if b = a then occ x l else 0 := by
  induction l with
  | nil => simp [occ]
  | cons y rest ih =>
    by_cases hba : b = a
    · subst hba
      by_cases hyx : y = x <;> simp [occ, ih, hyx, Prod.ext_iff]
    · have : ¬ ((a, y) = (b, x)) := by
        intro h
        exact hba ((Prod.ext_iff.mp h).1.symm)
      simp [occ, ih, hba, this]

theorem occ_pos_of_mem {α : Type} [DecidableEq α] (x : α) (l : List α)
    (h : x ∈ l) : 1 ≤ occ x l := by
  induction l with
  | nil => cases h
  | cons y rest ih =>
    rcases List.mem_cons.mp h with h1 | h1
    · simp [occ, h1.symm]
    · have := ih h1
      simp only [occ]
      omega

theorem dictGet_counterAdd_self (c : List (String × Nat)) (q : String) :
    dictGet (counterAdd c q) q = some (counterGet c q + 1) := by
  induction c with
  | nil => simp [counterAdd, dictGet, counterGet]
  | cons p rest ih =>
    obtain ⟨k, n⟩ := p
    by_cases h : k = q <;> simp [counterAdd, dictGet, counterGet, h, ih]

theorem dictGet_counterAdd_ne (c : List (String × Nat)) (q q' : String)
    (h : q ≠ q') : dictGet (counterAdd c q) q' = dictGet c q' := by
  induction c with
  | nil => simp [counterAdd, dictGet, h]
  | cons p rest ih =>
    obtain ⟨k, n⟩ := p
    by_cases h0 : k = q
    · subst h0
      simp [counterAdd, dictGet, h]
    · by_cases h1 : k = q' <;>
        simp [counterAdd, dictGet, h0, h1, ih, Ne.symm h]

theorem counterGet_foldl (names : List String) (acc : List (String × Nat))
    (q : String) :
    counterGet (names.foldl counterAdd acc) q = counterGet acc q + occ q names := by
  induction names generalizing acc with
  | nil => simp [occ]
  | cons n rest ih =>
    simp only [List.foldl_cons, ih, occ]
    by_cases h : n = q
    · subst h
      have h1 : counterGet (counterAdd acc n) n = counterGet acc n + 1 := by
        rw [counterGet, dictGet_counterAdd_self]
        rfl
      rw [h1, if_pos rfl]
      omega
    · rw [counterGet, dictGet_counterAdd_ne _ _ _ h, if_neg h]
      simp only [counterGet]
      omega

theorem isSome_foldl_counterAdd (names : List String)
    (acc : List (String × Nat)) (q : String) :
    (dictGet (names.foldl counterAdd acc) q).isSome
      = ((dictGet acc q).isSome || names.contains q) := by
  induction names generalizing acc with
  | nil => simp
  | cons n rest ih =>
    simp only [List.foldl_cons, ih]
    by_cases h : n = q
    · subst h
      simp [dictGet_counterAdd_self]
    · rw [dictGet_counterAdd_ne _ _ _ h]
      simp [h, Ne.symm h]

theorem counterGet_counter (names : List String) (q : String) :
    counterGet (counter names) q = occ q names := by
  simpa [counter, counterGet, dictGet] using counterGet_foldl names [] q

theorem counter_isSome_iff (names : List String) (q : String) :
    (dictGet (counter names) q).isSome ↔ q ∈ names := by
  rw [counter, isSome_foldl_counterAdd]
  simp [dictGet]

theorem counter_value_pos (names : List String) (q : String) (n : Nat)
    (h : dictGet (counter names) q = some n) : 1 ≤ n := by
  have hmem : q ∈ names := (counter_isSome_iff names q).mp (by simp [h])
  have hval : counterGet (counter names) q = n := by simp [counterGet, h]
  have := counterGet_counter names q
  have := occ_pos_of_mem q names hmem
  omega

theorem mapME_ok_forall {α β : Type} (f : α → Except String β) (l : List α)
    (ys : List β) (h : mapME f l = Except.ok ys) :
    ∀ x ∈ l, ∃ y, f x = Except.ok y := by
  induction l generalizing ys with
  | nil => intro x hx; cases hx
  | cons a rest ih =>
    intro x hx
    rcases hfa : f a with e | y
    · rw [mapME, hfa] at h
      cases h
    · rw [mapME, hfa] at h
      rcases hrest : mapME f rest with e' | ys'
      · rw [hrest] at h
        simp [Except.map] at h
      · rcases List.mem_cons.mp hx with h1 | h1
        · exact ⟨y, h1 ▸ hfa⟩
        · exact ih ys' hrest x h1

/-! ## Inspector-level lemmas -/

theorem grq_some (app : App) (st : InspectorState) (rq : RouteTable)
    (h : st.route_queues = some rq) : get_route_queues app st = (rq, st, []) := by
  rw [get_route_queues, h]

theorem grq_none (app : App) (st : InspectorState)
    (h : st.route_queues = none) :
    get_route_queues app st =
      (routeTableOf app, { st with route_queues := some (routeTableOf app) },
        [ExtCall.activeQueuesCall]) := by
  rw [get_route_queues, h]

/-- The value `get_status_task_counts` computes from a given routing table. -/
def countsFrom (rq : RouteTable) (app : App) (status : String) :
    Except String (List (String × Nat)) :=
  (mapME (get_queue rq) (app.inspected status).flatten).map counter

theorem gstc_invalid (app : App) (st : InspectorState) (status : String)
    (h : status ∉ validStatuses) :
    get_status_task_counts app st status =
      (Except.error "KeyError: Invalid task status", st, []) := by
  rw [get_status_task_counts, if_neg h]

theorem gstc_valid_some (app : App) (st : InspectorState) (status : String)
    (rq : RouteTable) (hv : status ∈ validStatuses)
    (hrq : st.route_queues = some rq) :
    get_status_task_counts app st status =
      (countsFrom rq app status, st, [ExtCall.inspectCall status]) := by
  rw [get_status_task_counts, if_pos hv, grq_some app st rq hrq]
  rcases hm : mapME (get_queue rq) (app.inspected status).flatten with e | qs <;>
    simp [countsFrom, hm, Except.map]

theorem gstc_valid_none (app : App) (st : InspectorState) (status : String)
    (hv : status ∈ validStatuses) (hrq : st.route_queues = none) :
    get_status_task_counts app st status =
      (countsFrom (routeTableOf app) app status,
        { st with route_queues := some (routeTableOf app) },
        [ExtCall.activeQueuesCall, ExtCall.inspectCall status]) := by
  rw [get_status_task_counts, if_pos hv, grq_none app st hrq]
  rcases hm : mapME (get_queue (routeTableOf app)) (app.inspected status).flatten
      with e | qs <;>
    simp [countsFrom, hm, Except.map]

theorem pureCounts_valid (app : App) (status : String)
    (hv : status ∈ validStatuses) :
    pureCounts app status = (resolveStatus app status).map counter := by
  rw [pureCounts, gstc_valid_none app initInspector status hv rfl]
  rfl

theorem pureCounts_invalid (app : App) (status : String)
    (hv : status ∉ validStatuses) :
    pureCounts app status = Except.error "KeyError: Invalid task status" := by
  rw [pureCounts, gstc_invalid app initInspector status hv]

theorem consistent_init (app : App) : consistent app initInspector := by
  constructor
  · intro rq h
    cases h
  · intro s ctr h
    cases h

theorem gstc_spec (app : App) (st : InspectorState) (status : String)
    (h : consistent app st) :
    (get_status_task_counts app st status).1 = pureCounts app status ∧
    consistent app (get_status_task_counts app st status).2.1 ∧
    (get_status_task_counts app st status).2.1.statusCache = st.statusCache := by
  by_cases hv : status ∈ validStatuses
  · rcases hrq : st.route_queues with _ | rq
    · rw [gstc_valid_none app st status hv hrq]
      refine ⟨(pureCounts_valid app status hv).symm, ⟨?_, h.2⟩, rfl⟩
      intro rq' h'
      cases h'
      rfl
    · have hrt : rq = routeTableOf app := h.1 rq hrq
      rw [gstc_valid_some app st status rq hv hrq, hrt]
      exact ⟨(pureCounts_valid app status hv).symm, h, rfl⟩
  · rw [gstc_invalid app st status hv]
    exact ⟨(pureCounts_invalid app status hv).symm, h, rfl⟩

theorem inspectorGet_spec (app : App) (st : InspectorState) (status : String)
    (h : consistent app st) :
    (inspectorGet app st status).1 = pureCounts app status ∧
    consistent app (inspectorGet app st status).2.1 := by
  rcases hc : dictGet st.statusCache status with _ | ctr
  · rcases hg : get_status_task_counts app st status with ⟨r, s1, calls⟩
    have hs := gstc_spec app st status h
    rw [hg] at hs
    rcases r with e | ctr
    · simp only [inspectorGet, hc, hg]
      exact ⟨hs.1, hs.2.1⟩
    · simp only [inspectorGet, hc, hg]
      refine ⟨hs.1, ⟨hs.2.1.1, ?_⟩⟩
      intro s c' hget
      by_cases hss : s = status
      · subst hss
        rw [dictGet_dictInsert_self] at hget
        cases hget
        exact hs.1.symm
      · rw [dictGet_dictInsert_ne _ _ _ _ (fun he => hss he.symm)] at hget
        rw [hs.2.2] at hget
        exact h.2 s c' hget
  · simp only [inspectorGet, hc]
    exact ⟨(h.2 status ctr hc).symm, h⟩

/-! ## Call-counting lemmas on a single inspector -/

theorem inspectorGet_route_calls (app : App) (st : InspectorState)
    (status : String) :
    occ ExtCall.activeQueuesCall (inspectorGet app st status).2.2
        + flagNat st.route_queues.isSome
      ≤ flagNat (inspectorGet app st status).2.1.route_queues.isSome := by
  rcases hc : dictGet st.statusCache status with _ | ctr
  · by_cases hv : status ∈ validStatuses
    · rcases hrq : st.route_queues with _ | rq
      · have hg := gstc_valid_none app st status hv hrq
        rcases hm : countsFrom (routeTableOf app) app status with e | ctr' <;>
          · rw [hm] at hg
            simp [inspectorGet, hc, hg, occ, flagNat, hrq]
      · have hg := gstc_valid_some app st status rq hv hrq
        rcases hm : countsFrom rq app status with e | ctr' <;>
          · rw [hm] at hg
            simp [inspectorGet, hc, hg, occ, flagNat, hrq]
    · have hg := gstc_invalid app st status hv
      simp [inspectorGet, hc, hg, occ, flagNat]
  · simp [inspectorGet, hc, occ, flagNat]

theorem inspectorGet_status_calls (app : App) (st : InspectorState)
    (status s0 : String) (h : consistent app st)
    (hgood : ∀ s ∈ validStatuses, ∃ ns, resolveStatus app s = Except.ok ns) :
    occ (ExtCall.inspectCall s0) (inspectorGet app st status).2.2
        + flagNat (dictGet st.statusCache s0).isSome
      ≤ flagNat (dictGet (inspectorGet app st status).2.1.statusCache s0).isSome := by
  rcases hc : dictGet st.statusCache status with _ | ctr
  · by_cases hv : status ∈ validStatuses
    · rcases hgood status hv with ⟨ns, hns⟩
      have hval : pureCounts app status = Except.ok (counter ns) := by
        rw [pureCounts_valid app status hv, hns]
        rfl
      have hok : (get_status_task_counts app st status).1 = Except.ok (counter ns) := by
        rw [(gstc_spec app st status h).1, hval]
      have hcache : (get_status_task_counts app st status).2.1.statusCache
          = st.statusCache := (gstc_spec app st status h).2.2
      rcases hg : get_status_task_counts app st status with ⟨r, s1, calls⟩
      rw [hg] at hok hcache
      simp only at hok hcache
      subst hok
      have hcalls : calls = [ExtCall.inspectCall status] ∨
          calls = [ExtCall.activeQueuesCall, ExtCall.inspectCall status] := by
        rcases hrq : st.route_queues with _ | rq
        · rw [gstc_valid_none app st status hv hrq] at hg
          exact Or.inr (congrArg (fun p => p.2.2) hg).symm
        · rw [gstc_valid_some app st status rq hv hrq] at hg
          exact Or.inl (congrArg (fun p => p.2.2) hg).symm
      by_cases hss : s0 = status
      · subst hss
        simp only [inspectorGet, hc, hg]
        rw [dictGet_dictInsert_self]
        rcases hcalls with h1 | h1 <;> simp [h1, occ, flagNat]
      · have hss' : status ≠ s0 := fun he => hss he.symm
        simp only [inspectorGet, hc, hg]
        rw [dictGet_dictInsert_ne _ _ _ _ hss', hcache]
        have hocc : occ (ExtCall.inspectCall s0) calls = 0 := by
          rcases hcalls with h1 | h1 <;> simp [h1, occ, hss']
        omega
    · have hg := gstc_invalid app st status hv
      simp [inspectorGet, hc, hg, occ, flagNat]
  · simp [inspectorGet, hc, occ, flagNat]

/-! ## Registry and cache-level lemmas -/

theorem registryGet_consistent (env : AppEnv) (c : Cache) (a : Nat)
    (h : cacheConsistent env c) : consistent (env a) (registryGet c a).1 := by
  rcases hl : dictGet c a with _ | st
  · simp only [registryGet, hl]
    exact consistent_init (env a)
  · simp only [registryGet, hl]
    exact h a st hl

theorem registryGet_lookup (c : Cache) (a : Nat) :
    dictGet (registryGet c a).2 a = some (registryGet c a).1 := by
  rcases hl : dictGet c a with _ | st
  · simp only [registryGet, hl]
    exact dictGet_dictInsert_self c a initInspector
  · simp only [registryGet, hl]

theorem registryGet_frame (c : Cache) (a b : Nat) (hb : b ≠ a) :
    dictGet (registryGet c a).2 b = dictGet c b := by
  rcases hl : dictGet c a with _ | st
  · simp only [registryGet, hl]
    exact dictGet_dictInsert_ne c a b initInspector (fun he => hb he.symm)
  · simp only [registryGet, hl]

theorem registryGet_cacheConsistent (env : AppEnv) (c : Cache) (a : Nat)
    (h : cacheConsistent env c) : cacheConsistent env (registryGet c a).2 := by
  intro b st' hget
  by_cases hb : b = a
  · subst hb
    rw [registryGet_lookup c b] at hget
    cases hget
    exact registryGet_consistent env c b h
  · rw [registryGet_frame c a b hb] at hget
    exact h b st' hget

theorem registryGet_routeDone (c : Cache) (a : Nat) :
    routeDone c a = (registryGet c a).1.route_queues.isSome := by
  rcases hl : dictGet c a with _ | st
  · simp [registryGet, routeDone, hl, initInspector]
  · simp [registryGet, routeDone, hl]

theorem registryGet_statusDone (c : Cache) (a : Nat) (s : String) :
    statusDone c a s = (dictGet (registryGet c a).1.statusCache s).isSome := by
  rcases hl : dictGet c a with _ | st
  · simp [registryGet, statusDone, hl, initInspector, dictGet]
  · simp [registryGet, statusDone, hl]

theorem registryGet_nodup (c : Cache) (a : Nat)
    (h : (c.map Prod.fst).Nodup) : ((registryGet c a).2.map Prod.fst).Nodup := by
  rcases hl : dictGet c a with _ | st
  · simp only [registryGet, hl]
    exact keys_dictInsert c a initInspector h
  · simp only [registryGet, hl]
    exact h

/-! ## `inspectOne` lemmas -/

theorem inspectOne_state_calls (env : AppEnv) (a : Nat) (c : Cache)
    (s q : String) :
    (inspectOne env a c s q).2.1
        = dictInsert (registryGet c a).2 a
            (inspectorGet (env a) (registryGet c a).1 s).2.1 ∧
    (inspectOne env a c s q).2.2
        = (inspectorGet (env a) (registryGet c a).1 s).2.2.map
            (fun e => (a, e)) := by
  rcases hr : registryGet c a with ⟨st, c1⟩
  rcases hig : inspectorGet (env a) st s with ⟨r, st1, calls⟩
  rcases r with e | ctr <;> simp [inspectOne, hr, hig]

theorem inspectOne_value (env : AppEnv) (a : Nat) (c : Cache) (s q : String)
    (h : cacheConsistent env c) :
    (inspectOne env a c s q).1
      = (pureCounts (env a) s).map (fun ctr => counterGet ctr q) := by
  rcases hr : registryGet c a with ⟨st, c1⟩
  have hcons : consistent (env a) st := by
    have := registryGet_consistent env c a h
    rw [hr] at this
    exact this
  have hval := (inspectorGet_spec (env a) st s hcons).1
  rcases hig : inspectorGet (env a) st s with ⟨r, st1, calls⟩
  rw [hig] at hval
  simp only at hval
  rcases r with e | ctr <;>
    simp [inspectOne, hr, hig, ← hval, Except.map]

theorem inspectOne_cacheConsistent (env : AppEnv) (a : Nat) (c : Cache)
    (s q : String) (h : cacheConsistent env c) :
    cacheConsistent env (inspectOne env a c s q).2.1 := by
  rw [(inspectOne_state_calls env a c s q).1]
  intro b st' hget
  by_cases hb : b = a
  · subst hb
    rw [dictGet_dictInsert_self] at hget
    cases hget
    have hcons : consistent (env b) (registryGet c b).1 :=
      registryGet_consistent env c b h
    exact (inspectorGet_spec (env b) (registryGet c b).1 s hcons).2
  · rw [dictGet_dictInsert_ne _ _ _ _ (fun he => hb he.symm)] at hget
    rw [registryGet_frame c a b hb] at hget
    exact h b st' hget

theorem inspectOne_frame (env : AppEnv) (a : Nat) (c : Cache) (s q : String)
    (b : Nat) (hb : b ≠ a) :
    dictGet (inspectOne env a c s q).2.1 b = dictGet c b := by
  rw [(inspectOne_state_calls env a c s q).1]
  rw [dictGet_dictInsert_ne _ _ _ _ (fun he => hb he.symm)]
  exact registryGet_frame c a b hb

theorem inspectOne_nodup (env : AppEnv) (a : Nat) (c : Cache) (s q : String)
    (h : (c.map Prod.fst).Nodup) :
    ((inspectOne env a c s q).2.1.map Prod.fst).Nodup := by
  rw [(inspectOne_state_calls env a c s q).1]
  exact keys_dictInsert _ _ _ (registryGet_nodup c a h)

theorem inspectOne_route_calls (env : AppEnv) (a : Nat) (c : Cache)
    (s q : String) (b : Nat) :
    occ (b, ExtCall.activeQueuesCall) (inspectOne env a c s q).2.2
        + flagNat (routeDone c b)
      ≤ flagNat (routeDone (inspectOne env a c s q).2.1 b) := by
  rw [(inspectOne_state_calls env a c s q).1,
    (inspectOne_state_calls env a c s q).2, occ_map_tag]
  by_cases hb : b = a
  · subst hb
    rw [if_pos rfl]
    have hafter : routeDone
        (dictInsert (registryGet c b).2 b
          (inspectorGet (env b) (registryGet c b).1 s).2.1) b
        = (inspectorGet (env b) (registryGet c b).1 s).2.1.route_queues.isSome := by
      rw [routeDone, dictGet_dictInsert_self]
    rw [hafter, registryGet_routeDone c b]
    exact inspectorGet_route_calls (env b) (registryGet c b).1 s
  · rw [if_neg hb]
    have hafter : routeDone
        (dictInsert (registryGet c a).2 a
          (inspectorGet (env a) (registryGet c a).1 s).2.1) b
        = routeDone c b := by
      rw [routeDone, dictGet_dictInsert_ne _ _ _ _ (fun he => hb he.symm),
        registryGet_frame c a b hb, routeDone]
    rw [hafter]
    omega

theorem inspectOne_status_calls (env : AppEnv) (a : Nat) (c : Cache)
    (s q : String) (b : Nat) (s0 : String) (h : cacheConsistent env c)
    (hgood : ∀ a' s', s' ∈ validStatuses →
      ∃ ns, resolveStatus (env a') s' = Except.ok ns) :
    occ (b, ExtCall.inspectCall s0) (inspectOne env a c s q).2.2
        + flagNat (statusDone c b s0)
      ≤ flagNat (statusDone (inspectOne env a c s q).2.1 b s0) := by
  rw [(inspectOne_state_calls env a c s q).1,
    (inspectOne_state_calls env a c s q).2, occ_map_tag]
  by_cases hb : b = a
  · subst hb
    rw [if_pos rfl]
    have hafter : statusDone
        (dictInsert (registryGet c b).2 b
          (inspectorGet (env b) (registryGet c b).1 s).2.1) b s0
        = (dictGet (inspectorGet (env b) (registryGet c b).1 s).2.1.statusCache
            s0).isSome := by
      rw [statusDone, dictGet_dictInsert_self]
    rw [hafter, registryGet_statusDone c b s0]
    exact inspectorGet_status_calls (env b) (registryGet c b).1 s s0
      (registryGet_consistent env c b h) (hgood b)
  · rw [if_neg hb]
    have hafter : statusDone
        (dictInsert (registryGet c a).2 a
          (inspectorGet (env a) (registryGet c a).1 s).2.1) b s0
        = statusDone c b s0 := by
      rw [statusDone, dictGet_dictInsert_ne _ _ _ _ (fun he => hb he.symm),
        registryGet_frame c a b hb, statusDone]
    rw [hafter]
    omega

/-! ## `inspectSum` and `inspect_count` lemmas -/

theorem inspectSum_spec (env : AppEnv) (a : Nat)
    (pairs : List (String × String)) (c : Cache) (h : cacheConsistent env c) :
    (inspectSum env a pairs c).1 = pureSum (env a) pairs ∧
    cacheConsistent env (inspectSum env a pairs c).2.1 ∧
    (∀ b, b ≠ a → dictGet (inspectSum env a pairs c).2.1 b = dictGet c b) ∧
    ((c.map Prod.fst).Nodup →
      ((inspectSum env a pairs c).2.1.map Prod.fst).Nodup) := by
  induction pairs generalizing c with
  | nil =>
    refine ⟨rfl, h, fun b _ => rfl, fun hnd => hnd⟩
  | cons p rest ih =>
    obtain ⟨s, q⟩ := p
    rcases h1 : inspectOne env a c s q with ⟨r1, c1, calls1⟩
    have hv1 := inspectOne_value env a c s q h
    rw [h1] at hv1
    simp only at hv1
    have hc1 : cacheConsistent env c1 := by
      have := inspectOne_cacheConsistent env a c s q h
      rw [h1] at this
      exact this
    have hf1 : ∀ b, b ≠ a → dictGet c1 b = dictGet c b := by
      intro b hb
      have := inspectOne_frame env a c s q b hb
      rw [h1] at this
      exact this
    have hn1 : (c.map Prod.fst).Nodup → (c1.map Prod.fst).Nodup := by
      intro hnd
      have := inspectOne_nodup env a c s q hnd
      rw [h1] at this
      exact this
    rcases hp : pureCounts (env a) s with e | ctr
    · rw [hp] at hv1
      simp only [Except.map] at hv1
      subst hv1
      have hSum : inspectSum env a ((s, q) :: rest) c
          = (Except.error e, c1, calls1) := by
        simp only [inspectSum, h1]
      rw [hSum]
      refine ⟨?_, hc1, hf1, hn1⟩
      simp [pureSum, hp]
    · rw [hp] at hv1
      simp only [Except.map] at hv1
      subst hv1
      rcases h2 : inspectSum env a rest c1 with ⟨r2, c2, calls2⟩
      have hrec := ih c1 hc1
      rw [h2] at hrec
      simp only at hrec
      rcases hrec with ⟨hv2, hc2, hf2, hn2⟩
      have hframe : ∀ b, b ≠ a → dictGet c2 b = dictGet c b :=
        fun b hb => (hf2 b hb).trans (hf1 b hb)
      rcases r2 with e2v | m
      · have hSum : inspectSum env a ((s, q) :: rest) c
            = (Except.error e2v, c2, calls1 ++ calls2) := by
          simp only [inspectSum, h1, h2]
        rw [hSum]
        refine ⟨?_, hc2, hframe, fun hnd => hn2 (hn1 hnd)⟩
        simp [pureSum, hp, ← hv2, Except.map]
      · have hSum : inspectSum env a ((s, q) :: rest) c
            = (Except.ok (counterGet ctr q + m), c2, calls1 ++ calls2) := by
          simp only [inspectSum, h1, h2]
        rw [hSum]
        refine ⟨?_, hc2, hframe, fun hnd => hn2 (hn1 hnd)⟩
        simp [pureSum, hp, ← hv2, Except.map]

theorem inspectSum_route_calls (env : AppEnv) (a : Nat)
    (pairs : List (String × String)) (c : Cache) (b : Nat) :
    occ (b, ExtCall.activeQueuesCall) (inspectSum env a pairs c).2.2
        + flagNat (routeDone c b)
      ≤ flagNat (routeDone (inspectSum env a pairs c).2.1 b) := by
  induction pairs generalizing c with
  | nil => simp [inspectSum, occ]
  | cons p rest ih =>
    obtain ⟨s, q⟩ := p
    rcases h1 : inspectOne env a c s q with ⟨r1, c1, calls1⟩
    have e1 := inspectOne_route_calls env a c s q b
    rw [h1] at e1
    simp only at e1
    rcases r1 with e | n
    · simp only [inspectSum, h1]
      exact e1
    · rcases h2 : inspectSum env a rest c1 with ⟨r2, c2, calls2⟩
      have e2 := ih c1
      rw [h2] at e2
      simp only at e2
      rcases r2 with e | m <;>
        · simp only [inspectSum, h1, h2, occ_append]
          omega

theorem inspectSum_status_calls (env : AppEnv) (a : Nat)
    (pairs : List (String × String)) (c : Cache) (b : Nat) (s0 : String)
    (h : cacheConsistent env c)
    (hgood : ∀ a' s', s' ∈ validStatuses →
      ∃ ns, resolveStatus (env a') s' = Except.ok ns) :
    occ (b, ExtCall.inspectCall s0) (inspectSum env a pairs c).2.2
        + flagNat (statusDone c b s0)
      ≤ flagNat (statusDone (inspectSum env a pairs c).2.1 b s0) := by
  induction pairs generalizing c with
  | nil => simp [inspectSum, occ]
  | cons p rest ih =>
    obtain ⟨s, q⟩ := p
    rcases h1 : inspectOne env a c s q with ⟨r1, c1, calls1⟩
    have e1 := inspectOne_status_calls env a c s q b s0 h hgood
    rw [h1] at e1
    simp only at e1
    have hc1 : cacheConsistent env c1 := by
      have := inspectOne_cacheConsistent env a c s q h
      rw [h1] at this
      exact this
    rcases r1 with e | n
    · simp only [inspectSum, h1]
      exact e1
    · rcases h2 : inspectSum env a rest c1 with ⟨r2, c2, calls2⟩
      have e2 := ih c1 hc1
      rw [h2] at e2
      simp only at e2
      rcases r2 with e | m <;>
        · simp only [inspectSum, h1, h2, occ_append]
          omega

theorem inspect_count_spec (env : AppEnv) (cfg : ProcConfig) (c : Cache)
    (h : cacheConsistent env c) :
    (inspect_count env cfg c).1 = pureSum (env cfg.app) (statusQueuePairs cfg) ∧
    cacheConsistent env (inspect_count env cfg c).2.1 ∧
    (∀ b, b ≠ cfg.app →
      dictGet (inspect_count env cfg c).2.1 b = dictGet c b) ∧
    ((c.map Prod.fst).Nodup →
      ((inspect_count env cfg c).2.1.map Prod.fst).Nodup) :=
  inspectSum_spec env cfg.app (statusQueuePairs cfg) c h

theorem flagNat_le_one (b : Bool) : flagNat b ≤ 1 := by
  cases b <;> simp [flagNat]

/-! ## Run-level lemmas -/

theorem runInspect_spec (env : AppEnv) (cfgs : List ProcConfig) (c : Cache)
    (h : cacheConsistent env c) (hgood : goodEnv env) :
    cacheConsistent env (runInspect env cfgs c).1 ∧
    (∀ b, occ (b, ExtCall.activeQueuesCall) (runInspect env cfgs c).2
        + flagNat (routeDone c b)
      ≤ flagNat (routeDone (runInspect env cfgs c).1 b)) ∧
    (∀ b s0, occ (b, ExtCall.inspectCall s0) (runInspect env cfgs c).2
        + flagNat (statusDone c b s0)
      ≤ flagNat (statusDone (runInspect env cfgs c).1 b s0)) ∧
    ((c.map Prod.fst).Nodup → ((runInspect env cfgs c).1.map Prod.fst).Nodup) := by
  induction cfgs generalizing c with
  | nil =>
    refine ⟨h, ?_, ?_, fun hnd => hnd⟩
    · intro b
      simp [runInspect, occ]
    · intro b s0
      simp [runInspect, occ]
  | cons cfg rest ih =>
    rcases h1 : inspect_count env cfg c with ⟨r1, c1, calls1⟩
    have hspec := inspect_count_spec env cfg c h
    rw [h1] at hspec
    simp only at hspec
    have hroute1 : ∀ b, occ (b, ExtCall.activeQueuesCall) calls1
        + flagNat (routeDone c b) ≤ flagNat (routeDone c1 b) := by
      intro b
      have := inspectSum_route_calls env cfg.app (statusQueuePairs cfg) c b
      rw [show inspectSum env cfg.app (statusQueuePairs cfg) c
          = (r1, c1, calls1) from h1] at this
      exact this
    have hstatus1 : ∀ b s0, occ (b, ExtCall.inspectCall s0) calls1
        + flagNat (statusDone c b s0) ≤ flagNat (statusDone c1 b s0) := by
      intro b s0
      have := inspectSum_status_calls env cfg.app (statusQueuePairs cfg) c b s0
        h hgood
      rw [show inspectSum env cfg.app (statusQueuePairs cfg) c
          = (r1, c1, calls1) from h1] at this
      exact this
    rcases h2 : runInspect env rest c1 with ⟨c2, calls2⟩
    have hrec := ih c1 hspec.2.1
    rw [h2] at hrec
    simp only at hrec
    have hRun : runInspect env (cfg :: rest) c = (c2, calls1 ++ calls2) := by
      simp only [runInspect, h1, h2]
    rw [hRun]
    refine ⟨hrec.1, ?_, ?_, fun hnd => hrec.2.2.2 (hspec.2.2.2 hnd)⟩
    · intro b
      have e1 := hroute1 b
      have e2 := hrec.2.1 b
      simp only [occ_append]
      omega
    · intro b s0
      have e1 := hstatus1 b s0
      have e2 := hrec.2.2.1 b s0
      simp only [occ_append]
      omega

/-! ## Unconditional frame, nodup and route-counting lemmas -/

theorem inspectSum_frame (env : AppEnv) (a : Nat)
    (pairs : List (String × String)) (c : Cache) (b : Nat) (hb : b ≠ a) :
    dictGet (inspectSum env a pairs c).2.1 b = dictGet c b := by
  induction pairs generalizing c with
  | nil => rfl
  | cons p rest ih =>
    obtain ⟨s, q⟩ := p
    rcases h1 : inspectOne env a c s q with ⟨r1, c1, calls1⟩
    have hf1 : dictGet c1 b = dictGet c b := by
      have := inspectOne_frame env a c s q b hb
      rw [h1] at this
      exact this
    rcases r1 with e | n
    · simp only [inspectSum, h1]
      exact hf1
    · rcases h2 : inspectSum env a rest c1 with ⟨r2, c2, calls2⟩
      have hf2 : dictGet c2 b = dictGet c1 b := by
        have := ih c1
        rw [h2] at this
        exact this
      rcases r2 with ev | m
      · simp only [inspectSum, h1, h2]
        exact hf2.trans hf1
      · simp only [inspectSum, h1, h2]
        exact hf2.trans hf1

theorem inspectSum_nodup (env : AppEnv) (a : Nat)
    (pairs : List (String × String)) (c : Cache)
    (h : (c.map Prod.fst).Nodup) :
    ((inspectSum env a pairs c).2.1.map Prod.fst).Nodup := by
  induction pairs generalizing c with
  | nil => exact h
  | cons p rest ih =>
    obtain ⟨s, q⟩ := p
    rcases h1 : inspectOne env a c s q with ⟨r1, c1, calls1⟩
    have hn1 : (c1.map Prod.fst).Nodup := by
      have := inspectOne_nodup env a c s q h
      rw [h1] at this
      exact this
    rcases r1 with e | n
    · simp only [inspectSum, h1]
      exact hn1
    · rcases h2 : inspectSum env a rest c1 with ⟨r2, c2, calls2⟩
      have hn2 := ih c1 hn1
      rw [h2] at hn2
      rcases r2 with ev | m
      · simp only [inspectSum, h1, h2]
        exact hn2
      · simp only [inspectSum, h1, h2]
        exact hn2

theorem inspect_count_frame (env : AppEnv) (cfg : ProcConfig) (c : Cache)
    (b : Nat) (hb : b ≠ cfg.app) :
    dictGet (inspect_count env cfg c).2.1 b = dictGet c b :=
  inspectSum_frame env cfg.app (statusQueuePairs cfg) c b hb

theorem runInspect_route_calls (env : AppEnv) (cfgs : List ProcConfig)
    (c : Cache) (b : Nat) :
    occ (b, ExtCall.activeQueuesCall) (runInspect env cfgs c).2
        + flagNat (routeDone c b)
      ≤ flagNat (routeDone (runInspect env cfgs c).1 b) := by
  induction cfgs generalizing c with
  | nil => simp [runInspect, occ]
  | cons cfg rest ih =>
    rcases h1 : inspect_count env cfg c with ⟨r1, c1, calls1⟩
    have e1 := inspectSum_route_calls env cfg.app (statusQueuePairs cfg) c b
    rw [show inspectSum env cfg.app (statusQueuePairs cfg) c
        = (r1, c1, calls1) from h1] at e1
    simp only at e1
    rcases h2 : runInspect env rest c1 with ⟨c2, calls2⟩
    have e2 := ih c1
    rw [h2] at e2
    simp only at e2
    have hRun : runInspect env (cfg :: rest) c = (c2, calls1 ++ calls2) := by
      simp only [runInspect, h1, h2]
    rw [hRun]
    simp only [occ_append]
    omega

theorem runInspect_nodup (env : AppEnv) (cfgs : List ProcConfig) (c : Cache)
    (h : (c.map Prod.fst).Nodup) :
    ((runInspect env cfgs c).1.map Prod.fst).Nodup := by
  induction cfgs generalizing c with
  | nil => exact h
  | cons cfg rest ih =>
    rcases h1 : inspect_count env cfg c with ⟨r1, c1, calls1⟩
    have hn1 : (c1.map Prod.fst).Nodup := by
      have := inspectSum_nodup env cfg.app (statusQueuePairs cfg) c h
      rw [show inspectSum env cfg.app (statusQueuePairs cfg) c
          = (r1, c1, calls1) from h1] at this
      exact this
    rcases h2 : runInspect env rest c1 with ⟨c2, calls2⟩
    have hn2 := ih c1 hn1
    rw [h2] at hn2
    have hRun : runInspect env (cfg :: rest) c = (c2, calls1 ++ calls2) := by
      simp only [runInspect, h1, h2]
    rw [hRun]
    exact hn2

/-! ## Pure-value lemmas -/

theorem pureSum_eq_ok (app : App) (pairs : List (String × String))
    (ctrF : String → List (String × Nat))
    (h : ∀ p ∈ pairs, pureCounts app p.1 = Except.ok (ctrF p.1)) :
    pureSum app pairs
      = Except.ok ((pairs.map (fun p => counterGet (ctrF p.1) p.2)).sum) := by
  induction pairs with
  | nil => rfl
  | cons p rest ih =>
    obtain ⟨s, q⟩ := p
    have hs := h (s, q) (List.mem_cons_self _ _)
    simp only at hs
    have hrest := ih (fun p hp => h p (List.mem_cons_of_mem _ hp))
    simp only [pureSum, hs, hrest, Except.map, List.map_cons, List.sum_cons]

theorem sum_map_pairs (ss qs : List String) (f : String → String → Nat) :
    ((ss.flatMap (fun s => qs.map (fun q => (s, q)))).map
        (fun p => f p.1 p.2)).sum
      = (ss.map (fun s => (qs.map (fun q => f s q)).sum)).sum := by
  induction ss with
  | nil => rfl
  | cons s rest ih =>
    simp only [List.flatMap_cons, List.map_append, List.sum_append, ih,
      List.map_cons, List.sum_cons, List.map_map]
    congr 1

instance {e a : Type} [DecidableEq e] [DecidableEq a] :
    DecidableEq (Except e a) := fun x y =>
  match x, y with
  | Except.error e1, Except.error e2 =>
    if h : e1 = e2 then isTrue (by rw [h]) else
      isFalse (by intro hc; cases hc; exact h rfl)
  | Except.error e1, Except.ok a2 => isFalse (by intro hc; cases hc)
  | Except.ok a1, Except.error e2 => isFalse (by intro hc; cases hc)
  | Except.ok a1, Except.ok a2 =>
    if h : a1 = a2 then isTrue (by rw [h]) else
      isFalse (by intro hc; cases hc; exact h rfl)

theorem cacheConsistent_nil (env : AppEnv) : cacheConsistent env [] := by
  intro a st hget
  cases hget

theorem passiveSum_ok (declare : String → DeclareResult) (queues : List String)
    (h : ∀ q ∈ queues, declare q ≠ DeclareResult.otherError) :
    passiveSum declare queues
      = Except.ok ((queues.map (fun q =>
          match declare q with
          | DeclareResult.ok n => n
          | _ => 0)).sum) := by
  induction queues with
  | nil => rfl
  | cons q rest ih =>
    have hrest := ih (fun q' hq' => h q' (List.mem_cons_of_mem _ hq'))
    rcases hd : declare q with n | _ | _
    · simp [passiveSum, hd, hrest, Except.map]
    · simp [passiveSum, hd, hrest]
    · exact absurd hd (h q (List.mem_cons_self _ _))

theorem statusQueuePairs_no_queues (statuses : List String) (a : Nat) :
    statusQueuePairs ⟨[], statuses, a⟩ = [] := by
  simp [statusQueuePairs]

theorem mem_statusQueuePairs_fst (cfg : ProcConfig) (p : String × String)
    (h : p ∈ statusQueuePairs cfg) : p.1 ∈ cfg.inspect_statuses := by
  rcases List.mem_flatMap.mp h with ⟨s, hs, hp⟩
  rcases List.mem_map.mp hp with ⟨q, _, hq⟩
  cases hq
  exact hs

theorem dictGet_foldl_insert (bindings : List QueueBinding) (d : RouteTable)
    (key : String × String) :
    dictGet (bindings.foldl
        (fun d q => dictInsert d (q.exchangeName, q.routingKey) q.name) d) key
      = match bindings.reverse.find?
            (fun b => decide ((b.exchangeName, b.routingKey) = key)) with
        | some b => some b.name
        | none => dictGet d key := by
  induction bindings generalizing d with
  | nil => rfl
  | cons b bs ih =>
    simp only [List.foldl_cons, ih, List.reverse_cons, List.find?_append]
    rcases hf : bs.reverse.find?
        (fun b => decide ((b.exchangeName, b.routingKey) = key)) with _ | b'
    · rw [hf]
      by_cases hk : (b.exchangeName, b.routingKey) = key
      · have hfb : List.find?
            (fun b => decide ((b.exchangeName, b.routingKey) = key)) [b]
              = some b := by
          simp [List.find?, hk]
        rw [hfb]
        show dictGet (dictInsert d (b.exchangeName, b.routingKey) b.name) key
          = some b.name
        rw [← hk]
        exact dictGet_dictInsert_self d _ _
      · have hfb : List.find?
            (fun b => decide ((b.exchangeName, b.routingKey) = key)) [b]
              = none := by
          simp [List.find?, hk]
        rw [hfb]
        show dictGet (dictInsert d (b.exchangeName, b.routingKey) b.name) key
          = dictGet d key
        exact dictGet_dictInsert_ne d _ _ _ hk
    · rw [hf]
      rfl

theorem dictGet_buildRouteQueues (bindings : List QueueBinding)
    (key : String × String) :
    dictGet (buildRouteQueues bindings) key
      = (bindings.reverse.find?
          (fun b => decide ((b.exchangeName, b.routingKey) = key))).map
            QueueBinding.name := by
  rw [buildRouteQueues, dictGet_foldl_insert]
  rcases hf : bindings.reverse.find?
      (fun b => decide ((b.exchangeName, b.routingKey) = key)) with _ | b
  · rw [hf]
    rfl
  · rw [hf]
    rfl

/-! ## Claim theorems -/

/-- C2: for every list of queue names, when the channel supports a direct
current-size query reporting `size q` for each queue `q`, `quantity` returns
exactly the sum of the sizes over the configured queues. -/
theorem claim_C2_direct_size_sum (env : AppEnv) (cfg : ProcConfig)
    (size : String → Nat) (cache : Option Cache) :
    (quantity env cfg (Channel.direct size) cache).1
      = Except.ok ((cfg.queues.map size).sum) := rfl

/-- C3: on the passive-declare path, a queue whose declare fails with a
channel error contributes 0 while the remaining queues are still counted, and
no error is raised (as long as no other kind of broker error occurs). -/
theorem claim_C3_channel_error_skipped (env : AppEnv) (cfg : ProcConfig)
    (declare : String → DeclareResult)
    (h : ∀ q ∈ cfg.queues, declare q ≠ DeclareResult.otherError) :
    (quantity env cfg (Channel.declareOnly declare) none).1
      = Except.ok ((cfg.queues.map (fun q =>
          match declare q with
          | DeclareResult.ok n => n
          | _ => 0)).sum) := by
  have hp := passiveSum_ok declare cfg.queues h
  simp only [quantity, hp]

/-- C3 witness: with queue `x` nonexistent and queue `y` holding 5 messages,
`quantity` over `['x', 'y']` returns 5 and raises no error. -/
theorem claim_C3_witness :
    (quantity exEnv ⟨["x", "y"], [], 0⟩ (Channel.declareOnly exDeclare) none).1
      = Except.ok 5 := by
  have h := claim_C3_channel_error_skipped exEnv ⟨["x", "y"], [], 0⟩ exDeclare
    (by decide)
  rw [h]
  decide

/-- C9: a proc configured with an empty list of queues yields quantity 0 on
both channel kinds, with or without a cache object and regardless of its
`inspect_statuses`. -/
theorem claim_C9_empty_queues (env : AppEnv) (statuses : List String) (a : Nat)
    (ch : Channel) (cache : Option Cache) :
    (quantity env ⟨[], statuses, a⟩ ch cache).1 = Except.ok 0 := by
  cases ch with
  | direct size => rfl
  | declareOnly declare =>
    cases cache with
    | none => rfl
    | some c =>
      have hic : inspect_count env ⟨[], statuses, a⟩ c = (Except.ok 0, c, []) := by
        rw [inspect_count, statusQueuePairs_no_queues]
        rfl
      by_cases hs : statuses = []
      · subst hs
        rfl
      · have hs' : (ProcConfig.mk [] statuses a).inspect_statuses ≠ [] := hs
        simp [quantity, passiveSum, hic, hs']

/-- C6: for a status outside `{active, reserved, scheduled}`,
`get_status_task_counts` raises a `KeyError` with no external worker call and
leaves the inspector state (routing table and per-status table) unchanged;
through the memoizing wrapper nothing is stored either. -/
theorem claim_C6_invalid_status (app : App) (st : InspectorState)
    (status : String) (hv : status ∉ validStatuses) :
    get_status_task_counts app st status
        = (Except.error "KeyError: Invalid task status", st, []) ∧
    (dictGet st.statusCache status = none →
      inspectorGet app st status
        = (Except.error "KeyError: Invalid task status", st, [])) := by
  refine ⟨gstc_invalid app st status hv, ?_⟩
  intro hc
  simp only [inspectorGet, hc, gstc_invalid app st status hv]

/-- C6 witness: requesting status `bogus` on a fresh inspector fails with the
`KeyError`, issues no worker query, and leaves the state unchanged. -/
theorem claim_C6_witness :
    get_status_task_counts exApp initInspector "bogus"
      = (Except.error "KeyError: Invalid task status", initInspector, []) :=
  (claim_C6_invalid_status exApp initInspector "bogus" (by decide)).1

/-- C4: `inspect_count` returns the sum of the per-status tally read at each
configured queue over configured statuses × configured queues, a `(status,
queue)` pair with no matching tasks contributing 0 via the counter's
default-0 lookup, with no error on absent queues. -/
theorem claim_C4_inspect_count_sum (env : AppEnv) (cfg : ProcConfig) (c : Cache)
    (names : String → List String)
    (hcc : cacheConsistent env c)
    (hvalid : ∀ s ∈ cfg.inspect_statuses, s ∈ validStatuses)
    (hres : ∀ s ∈ cfg.inspect_statuses,
      resolveStatus (env cfg.app) s = Except.ok (names s)) :
    (inspect_count env cfg c).1
      = Except.ok ((cfg.inspect_statuses.map (fun s =>
          (cfg.queues.map (fun q => counterGet (counter (names s)) q)).sum)).sum) := by
  have hval := (inspect_count_spec env cfg c hcc).1
  rw [hval]
  have hpure : ∀ p ∈ statusQueuePairs cfg,
      pureCounts (env cfg.app) p.1 = Except.ok (counter (names p.1)) := by
    intro p hp
    have hs := mem_statusQueuePairs_fst cfg p hp
    rw [pureCounts_valid (env cfg.app) p.1 (hvalid p.1 hs), hres p.1 hs]
    rfl
  rw [pureSum_eq_ok (env cfg.app) (statusQueuePairs cfg)
    (fun s => counter (names s)) hpure]
  congr 1
  exact sum_map_pairs cfg.inspect_statuses cfg.queues
    (fun s q => counterGet (counter (names s)) q)

/-- C4 witness: one active task on queue `q`, proc queues `[q, z]` — the
absent queue `z` contributes 0 and the total is 1 with no error. -/
theorem claim_C4_witness :
    (inspect_count exEnv exCfg []).1 = Except.ok 1 := by
  have h := claim_C4_inspect_count_sum exEnv exCfg []
    (fun s => if s = "active" then ["q"] else [])
    (cacheConsistent_nil exEnv) (by decide) (by decide)
  rw [h]
  decide

/-- C7: for a valid status the returned mapping is the tally of the flattened
task list resolved through the routing table; an unresolvable `(exchange,
routing key)` pair makes the computation fail with the propagated lookup
error. -/
theorem claim_C7_status_resolution (app : App) (st : InspectorState)
    (status : String) (h : consistent app st) (hv : status ∈ validStatuses) :
    (∀ names,
      mapME (get_queue (routeTableOf app)) (app.inspected status).flatten
          = Except.ok names →
      (get_status_task_counts app st status).1 = Except.ok (counter names)) ∧
    ((∃ t ∈ (app.inspected status).flatten,
        dictGet (routeTableOf app) (t.exchange, t.routingKey) = none) →
      ∃ e, (get_status_task_counts app st status).1 = Except.error e) := by
  have hval := (gstc_spec app st status h).1
  rw [hval, pureCounts_valid app status hv]
  constructor
  · intro names hm
    rw [resolveStatus, hm]
    rfl
  · intro hex
    rcases hex with ⟨t, ht, hnone⟩
    rcases hm : mapME (get_queue (routeTableOf app))
        (app.inspected status).flatten with e | names
    · rw [resolveStatus, hm]
      exact ⟨e, rfl⟩
    · rcases mapME_ok_forall _ _ _ hm t ht with ⟨qname, hq⟩
      rw [get_queue, hnone] at hq
      cases hq

/-- C7 witness: binding `(e, r) → q` and one active task with that delivery
info give the tally `{q: 1}`. -/
theorem claim_C7_witness :
    (get_status_task_counts exApp initInspector "active").1
      = Except.ok [("q", 1)] := by
  have h := (claim_C7_status_resolution exApp initInspector "active"
    (consistent_init exApp) (by decide)).1 ["q"] (by decide)
  rw [h]
  decide

/-- C8: the routing table is built from the flattened per-worker binding
lists as a dict keyed by `(exchange name, routing key)` with last-write-wins
on duplicates, and once built it is stored and returned from the cache with
no further worker query. -/
theorem claim_C8_route_table (bindings : List QueueBinding) (ex rk : String)
    (app : App) (st : InspectorState) (rq : RouteTable) :
    (routeTableOf app = buildRouteQueues app.activeQueues.flatten) ∧
    (dictGet (buildRouteQueues bindings) (ex, rk)
        = (bindings.reverse.find?
            (fun b => decide ((b.exchangeName, b.routingKey) = (ex, rk)))).map
              QueueBinding.name) ∧
    (st.route_queues = none →
      get_route_queues app st
        = (routeTableOf app,
            { st with route_queues := some (routeTableOf app) },
            [ExtCall.activeQueuesCall])) ∧
    (st.route_queues = some rq → get_route_queues app st = (rq, st, [])) :=
  ⟨rfl, dictGet_buildRouteQueues bindings (ex, rk),
    fun h => grq_none app st h, fun h => grq_some app st rq h⟩

/-- C8 witness: duplicate key `(e, r)` — the later binding `q2` wins; and a
memoized table is returned unchanged with no worker call. -/
theorem claim_C8_witness :
    dictGet (buildRouteQueues [⟨"e", "r", "q1"⟩, ⟨"e", "r", "q2"⟩]) ("e", "r")
        = some "q2" ∧
    get_route_queues exApp ⟨some [(("e", "r"), "q")], []⟩
        = ([(("e", "r"), "q")], ⟨some [(("e", "r"), "q")], []⟩, []) := by
  constructor
  · rw [(claim_C8_route_table [⟨"e", "r", "q1"⟩, ⟨"e", "r", "q2"⟩] "e" "r"
      exApp initInspector []).2.1]
    decide
  · exact (claim_C8_route_table [] "e" "r" exApp
      ⟨some [(("e", "r"), "q")], []⟩ [(("e", "r"), "q")]).2.2.2 rfl

/-- C10: a successful status query returns the tally of the resolved queue
names: every stored value is at least 1, and a queue appears as a key exactly
when at least one task resolved to it. -/
theorem claim_C10_tally_values (app : App) (st : InspectorState)
    (status : String) (ctr : List (String × Nat))
    (h : (get_status_task_counts app st status).1 = Except.ok ctr) :
    ∃ names,
      mapME (get_queue (get_route_queues app st).1)
          (app.inspected status).flatten = Except.ok names ∧
      ctr = counter names ∧
      (∀ q, (dictGet ctr q).isSome ↔ q ∈ names) ∧
      (∀ q n, dictGet ctr q = some n → 1 ≤ n) := by
  by_cases hv : status ∈ validStatuses
  · rcases hg : get_route_queues app st with ⟨rq, s1, calls1⟩
    rw [get_status_task_counts, if_pos hv, hg] at h
    simp only at h
    rcases hm : mapME (get_queue rq) (app.inspected status).flatten with e | names
    · rw [hm] at h
      simp only at h
      exact Except.noConfusion h
    · rw [hm] at h
      simp only at h
      have hctr : counter names = ctr := by
        injection h
      refine ⟨names, rfl, hctr.symm, ?_, ?_⟩
      · intro q
        rw [← hctr]
        exact counter_isSome_iff names q
      · intro q n hq
        rw [← hctr] at hq
        exact counter_value_pos names q n hq
  · rw [gstc_invalid app st status hv] at h
    simp only at h
    exact Except.noConfusion h

/-- C10 witness: the tally `{q: 1}` from the single active task has value 1
at key `q` and no other keys. -/
theorem claim_C10_witness :
    ∃ names,
      mapME (get_queue (get_route_queues exApp initInspector).1)
          (exApp.inspected "active").flatten = Except.ok names ∧
      [("q", 1)] = counter names ∧
      (∀ q, (dictGet [("q", 1)] q).isSome ↔ q ∈ names) ∧
      (∀ q n, dictGet [("q", 1)] q = some n → 1 ≤ n) :=
  claim_C10_tally_values exApp initInspector "active" [("q", 1)] (by decide)

/-- C1 counterexample: with a cache supplied and non-empty
`inspect_statuses`, the direct-size path returns the broker sum 4 although
`inspect_count` over the same cache is 1 — the inspect count is not added on
that path, so the claimed total `4 + 1` is not returned. -/
theorem claim_C1_counterexample :
    (quantity exEnv exCfg (Channel.direct exSize) (some [])).1 = Except.ok 4 ∧
    (inspect_count exEnv exCfg []).1 = Except.ok 1 ∧
    (quantity exEnv exCfg (Channel.direct exSize) (some [])).1
      ≠ Except.ok (4 + 1) :=
  ⟨by decide, by decide, by decide⟩

/-- C1 amended: the inspect count is added to the broker-derived sum only on
the passive-declare path; the direct-size path returns the queue-size sum
alone, skipping `inspect_count` entirely. -/
theorem claim_C1_amended_passive_only (env : AppEnv) (cfg : ProcConfig)
    (declare : String → DeclareResult) (c c1 : Cache) (count n : Nat)
    (calls : Calls)
    (hs : cfg.inspect_statuses ≠ [])
    (hcount : passiveSum declare cfg.queues = Except.ok count)
    (hinspect : inspect_count env cfg c = (Except.ok n, c1, calls)) :
    quantity env cfg (Channel.declareOnly declare) (some c)
        = (Except.ok (count + n), some c1, calls) ∧
    (∀ size cache, (quantity env cfg (Channel.direct size) cache).1
        = Except.ok ((cfg.queues.map size).sum)) := by
  constructor
  · simp [quantity, hcount, hinspect, hs]
  · intro size cache
    rfl

/-- C1 amended witness: passive path, broker sum 0 plus inspect count 1 gives
total 1. -/
theorem claim_C1_witness :
    quantity exEnv exCfg (Channel.declareOnly exDeclare) (some [])
      = (Except.ok (0 + 1),
         some [(0, ⟨some [(("e", "r"), "q")], [("active", [("q", 1)])]⟩)],
         [(0, ExtCall.activeQueuesCall), (0, ExtCall.inspectCall "active")]) :=
  (claim_C1_amended_passive_only exEnv exCfg exDeclare []
    [(0, ⟨some [(("e", "r"), "q")], [("active", [("q", 1)])]⟩)] 0 1
    [(0, ExtCall.activeQueuesCall), (0, ExtCall.inspectCall "active")]
    (by decide) (by decide) (by decide)).1

/-- The example environment is error-free: every valid status of every handle
resolves without a routing miss. -/
theorem goodEnv_exEnv : goodEnv exEnv := by
  have hx : ∀ s, s ∈ validStatuses →
      ∃ ns, resolveStatus exApp s = Except.ok ns := by
    intro s hs
    simp only [validStatuses] at hs
    fin_cases hs
    · exact ⟨["q"], by decide⟩
    · exact ⟨[], by decide⟩
    · exact ⟨[], by decide⟩
  intro a s hs
  exact hx s hs

/-- C5 counterexample: with a stale routing table (no bindings, one active
task) the `active` status query fails with a routing lookup error, stores
nothing, and querying the same proc twice against one cache object issues
the `active` worker query twice — not at most once as claimed. -/
theorem claim_C5_counterexample :
    occ ((0 : Nat), ExtCall.inspectCall "active")
        (runInspect missEnv [missCfg, missCfg] []).2 = 2 ∧
    ¬ (occ ((0 : Nat), ExtCall.inspectCall "active")
        (runInspect missEnv [missCfg, missCfg] []).2 ≤ 1) :=
  ⟨by decide, by decide⟩

/-- C5 amended: over one cache object's lifetime, unconditionally: each
handle's `active_queues()` routing resolution runs at most once, the registry
holds at most one inspector per handle, and a proc's `inspect_count` leaves
other handles' inspector entries untouched.  Each `(handle, status)` worker
query runs at most once provided status queries succeed (no routing-table
miss); a failed query is not memoized and may be reissued.  A proc's counts
depend only on its own handle's data. -/
theorem claim_C5_amended_memoization (env : AppEnv) (cfgs : List ProcConfig) :
    (∀ a, occ (a, ExtCall.activeQueuesCall) (runInspect env cfgs []).2 ≤ 1) ∧
    ((runInspect env cfgs []).1.map Prod.fst).Nodup ∧
    (∀ cfg c b, b ≠ cfg.app →
      dictGet ((inspect_count env cfg c).2.1) b = dictGet c b) ∧
    (goodEnv env →
      ∀ a s, occ (a, ExtCall.inspectCall s) (runInspect env cfgs []).2 ≤ 1) ∧
    (∀ cfg c, cacheConsistent env c →
      (inspect_count env cfg c).1 = pureSum (env cfg.app) (statusQueuePairs cfg)) := by
  refine ⟨?_, runInspect_nodup env cfgs [] (by simp), ?_, ?_, ?_⟩
  · intro a
    have h1 := runInspect_route_calls env cfgs [] a
    have h2 := flagNat_le_one (routeDone (runInspect env cfgs []).1 a)
    rw [show routeDone ([] : Cache) a = false from rfl,
      show flagNat false = 0 from rfl] at h1
    omega
  · intro cfg c b hb
    exact inspect_count_frame env cfg c b hb
  · intro hgood a s
    have hrun := runInspect_spec env cfgs [] (cacheConsistent_nil env) hgood
    have h1 := hrun.2.2.1 a s
    have h2 := flagNat_le_one (statusDone (runInspect env cfgs []).1 a s)
    rw [show statusDone ([] : Cache) a s = false from rfl,
      show flagNat false = 0 from rfl] at h1
    omega
  · intro cfg c hcc
    exact (inspect_count_spec env cfg c hcc).1

/-- C5 amended witness: in the error-free example environment, running the
same proc twice against one cache issues the `active` worker query at most
once. -/
theorem claim_C5_witness :
    occ ((0 : Nat), ExtCall.inspectCall "active")
      (runInspect exEnv [exCfg, exCfg] []).2 ≤ 1 :=
  (claim_C5_amended_memoization exEnv [exCfg, exCfg]).2.2.2.1
    goodEnv_exEnv 0 "active"

end Hirefire
